import Mathlib

/-!
Verification of `src/stochastic_vol_model_err.py`: two Bayesian error models
(`homoscedastic` and `stochastic_volatility`) that register named random
variables with a host probabilistic-programming engine and return a derived
variance.  The host engine (NumPyro) is external to the repository; following
the spec's external-interface contract, it is modelled abstractly: an engine
is a function producing the drawn value from the distribution specification,
the site name and the position of the draw in the trace (the pseudo-random
seed determines this function), and the trace records every registered site.
-/

namespace StochVol

/-- Closed tagged variant over the distribution families used by the code:
Gamma(shape, rate), InverseGamma(shape, scale), Beta(a, b), Normal(mean, std). -/
inductive Dist : Type where
  | gamma (shape rate : ℝ)
  | inverseGamma (shape scale : ℝ)
  | beta (a b : ℝ)
  | normal (mean std : ℝ)

/-- An event registered with the host inference context: either a named random
draw (site name, distribution, drawn value) or a named deterministic quantity
(site name, derived value; a scalar-or-vector, modelled as a list). -/
inductive Event : Type where
  | sample (site : String) (d : Dist) (value : ℝ)
  | det (site : String) (value : List ℝ)

/-- The site name an event registers. -/
def Event.site : Event → String
  | .sample s _ _ => s
  | .det s _ => s

/-- The state of the host inference trace during one model evaluation:
how many random draws have been consumed so far, and the list of registered
events in registration order. -/
structure TraceState : Type where
  counter : Nat
  events : List Event

/-- Modelled from the spec (external interfaces): a host engine under a fixed
pseudo-random seed.  Given a distribution specification, a site name and the
position of the draw in the random stream, it returns the drawn value.  A
fixed seed fixes the engine function. -/
abbrev Engine : Type := Dist → String → Nat → ℝ

/-- Modelled from the spec (external interfaces): the named-sample primitive
(`numpyro.sample`).  Draws a value for the given distribution at the current
stream position, registers the site, and advances the trace. -/
def sample (E : Engine) (site : String) (d : Dist) (s : TraceState) :
    ℝ × TraceState :=
  let v := E d site s.counter
  (v, ⟨s.counter + 1, s.events ++ [Event.sample site d v]⟩)

/-- Modelled from the spec (external interfaces): the named-deterministic
primitive (`numpyro.deterministic`).  Registers a derived value without
sampling and without consuming randomness. -/
def deterministic (site : String) (v : List ℝ) (s : TraceState) :
    List ℝ × TraceState :=
  (v, ⟨s.counter, s.events ++ [Event.det site v]⟩)

/-- Modelled from the spec (external interfaces): the sequential-scan
primitive (`numpyro.contrib.control_flow.scan`).  Runs the per-step transition
in strict left-to-right order over the input sequence, threading the carry and
the trace, and returns the final carry with the emitted values in order. -/
def scan {γ : Type} (f : γ → ℝ → TraceState → (γ × ℝ) × TraceState) :
    γ → List ℝ → TraceState → (γ × List ℝ) × TraceState
  | c, [], s => ((c, []), s)
  | c, x :: xs, s =>
    let r1 := f c x s
    let r2 := scan f r1.1.1 xs r1.2
    ((r2.1.1, r1.1.2 :: r2.1.2), r2.2)

/-- Embedding of `homoscedastic` (src/stochastic_vol_model_err.py lines 8-16):
fixed hyperparameters, a Gamma draw `C_0`, an InverseGamma draw `sigma2`,
returning `sigma2`. -/
def homoscedastic (E : Engine) (s : TraceState) : ℝ × TraceState :=
  let c_0 : ℝ := 2.5
  let g_0 : ℝ := 5
  let G_0 : ℝ := 3.33
  let r1 := sample E "C_0" (Dist.gamma g_0 G_0) s
  let C_0 := r1.1
  let r2 := sample E "sigma2" (Dist.inverseGamma c_0 C_0) r1.2
  let sigma2 := r2.1
  (sigma2, r2.2)

/-- Embedding of the inner step `sv_ht_scan` (lines 59-67): samples `h_t`
given the carried previous state and the closed-over parameters, and emits the
new state both as carry and as output. -/
noncomputable def sv_ht_scan (E : Engine) (sv_mu sv_phi_trans sv_sigma2_eta : ℝ)
    (tcarry : ℝ) (_ : ℝ) (s : TraceState) : (ℝ × ℝ) × TraceState :=
  let h_curr := tcarry
  let r := sample E "h_t"
    (Dist.normal (sv_mu + sv_phi_trans * (h_curr - sv_mu))
      (Real.sqrt sv_sigma2_eta)) s
  ((r.1, r.1), r.2)

/-- Embedding of `stochastic_volatility` (lines 19-72): hyperparameters,
four scalar draws, a scan of `sv_ht_scan` over `jnp.zeros(n_timesteps)`
(modelled as `List.replicate n_timesteps 0`), then the deterministic site
`sigma2 = exp(h_t)` elementwise, which is returned. -/
noncomputable def stochastic_volatility (E : Engine) (n_timesteps : Nat) (s : TraceState) :
    List ℝ × TraceState :=
  let b_mu : ℝ := 0.0
  let a_phi : ℝ := 5.0
  let b_phi : ℝ := 1.5
  let B_mu : ℝ := 1.0
  let B_sigma : ℝ := 1.0
  let r1 := sample E "sv_phi" (Dist.beta a_phi b_phi) s
  let sv_phi := r1.1
  let sv_phi_trans := sv_phi * 2 - 1
  let r2 := sample E "sv_sigma2_eta" (Dist.gamma 0.5 (0.5 * B_sigma)) r1.2
  let sv_sigma2_eta := r2.1
  let r3 := sample E "sv_mu" (Dist.normal b_mu (Real.sqrt B_mu)) r2.2
  let sv_mu := r3.1
  let r4 := sample E "h_0"
    (Dist.normal sv_mu (Real.sqrt (sv_sigma2_eta / (1 - sv_phi_trans ^ 2)))) r3.2
  let h_0 := r4.1
  let scan_vars := h_0
  let r5 := scan (sv_ht_scan E sv_mu sv_phi_trans sv_sigma2_eta) scan_vars
    (List.replicate n_timesteps 0) r4.2
  let h_t := r5.1.2
  let r6 := deterministic "sigma2" (h_t.map Real.exp) r5.2
  (r6.1, r6.2)

/-! Explicit value-level characterization of the draws, used to state and
prove the claims.  `k` is the stream position of the first draw of the model
evaluation (the initial trace counter). -/

/-- Value of the `C_0` draw of `homoscedastic` when the trace counter is `k`. -/
def C0Val (E : Engine) (k : Nat) : ℝ := E (Dist.gamma 5 3.33) "C_0" k

/-- Value of the `sigma2` draw of `homoscedastic`. -/
def sigma2Val (E : Engine) (k : Nat) : ℝ :=
  E (Dist.inverseGamma 2.5 (C0Val E k)) "sigma2" (k + 1)

/-- The two events `homoscedastic` registers, in order. -/
def homEvents (E : Engine) (k : Nat) : List Event :=
  [Event.sample "C_0" (Dist.gamma 5 3.33) (C0Val E k),
   Event.sample "sigma2" (Dist.inverseGamma 2.5 (C0Val E k)) (sigma2Val E k)]

/-- Value of the `sv_phi` draw of `stochastic_volatility` when the trace
counter starts at `k`. -/
noncomputable def svPhiVal (E : Engine) (k : Nat) : ℝ :=
  E (Dist.beta 5.0 1.5) "sv_phi" k

/-- The transformed persistence coefficient `sv_phi_trans = sv_phi*2 - 1`. -/
noncomputable def svPhiTransVal (E : Engine) (k : Nat) : ℝ :=
  svPhiVal E k * 2 - 1

/-- Value of the `sv_sigma2_eta` draw. -/
noncomputable def svEtaVal (E : Engine) (k : Nat) : ℝ :=
  E (Dist.gamma 0.5 (0.5 * 1.0)) "sv_sigma2_eta" (k + 1)

/-- Value of the `sv_mu` draw. -/
noncomputable def svMuVal (E : Engine) (k : Nat) : ℝ :=
  E (Dist.normal 0.0 (Real.sqrt 1.0)) "sv_mu" (k + 2)

/-- The latent log-volatility chain: `hVal E k 0` is the initial-state draw
`h_0` (from the stationary distribution of the AR(1) process), and
`hVal E k (t+1)` is the draw of the `(t+1)`-th state `h_t`, from a Normal
centred by the AR(1) recursion on the immediately preceding state
`hVal E k t`, consuming stream position `k + 4 + t` (strict time order). -/
noncomputable def hVal (E : Engine) (k : Nat) : Nat → ℝ
  | 0 =>
    E (Dist.normal (svMuVal E k)
        (Real.sqrt (svEtaVal E k / (1 - svPhiTransVal E k ^ 2)))) "h_0" (k + 3)
  | t + 1 =>
    E (Dist.normal (svMuVal E k + svPhiTransVal E k * (hVal E k t - svMuVal E k))
        (Real.sqrt (svEtaVal E k))) "h_t" (k + 4 + t)

/-- The event registered by the `t`-th iteration (0-indexed) of the scan:
a draw at site `h_t` from `Normal(mu + phi*(h_prev − mu), sqrt(eta))` where
`h_prev` is the immediately preceding state `hVal E k t`. -/
noncomputable def htEvent (E : Engine) (k t : Nat) : Event :=
  Event.sample "h_t"
    (Dist.normal (svMuVal E k + svPhiTransVal E k * (hVal E k t - svMuVal E k))
      (Real.sqrt (svEtaVal E k)))
    (hVal E k (t + 1))

/-- Reference recursion for the scan of `sv_ht_scan`: from carry `c` at stream
position `k`, running `n` steps yields (final carry, emitted values) and the
list of registered events. -/
noncomputable def htScanSpec (E : Engine) (mu phi eta : ℝ) :
    ℝ → Nat → Nat → (ℝ × List ℝ) × List Event
  | c, _, 0 => ((c, []), [])
  | c, k, n + 1 =>
    let d := Dist.normal (mu + phi * (c - mu)) (Real.sqrt eta)
    let v := E d "h_t" k
    let r := htScanSpec E mu phi eta v (k + 1) n
    ((r.1.1, v :: r.1.2), Event.sample "h_t" d v :: r.2)

/-- The sequence returned by `stochastic_volatility`: the exponential of each
emitted latent state, in chronological order. -/
noncomputable def svOut (E : Engine) (k n : Nat) : List ℝ :=
  ((List.range n).map (fun t => hVal E k (t + 1))).map Real.exp

/-- The events `stochastic_volatility` registers, in registration order: the
four scalar draws, one `h_t` draw per timestep, and the deterministic site
`sigma2`. -/
noncomputable def svEvents (E : Engine) (k n : Nat) : List Event :=
  Event.sample "sv_phi" (Dist.beta 5.0 1.5) (svPhiVal E k) ::
    Event.sample "sv_sigma2_eta" (Dist.gamma 0.5 (0.5 * 1.0)) (svEtaVal E k) ::
      Event.sample "sv_mu" (Dist.normal 0.0 (Real.sqrt 1.0)) (svMuVal E k) ::
        Event.sample "h_0"
          (Dist.normal (svMuVal E k)
            (Real.sqrt (svEtaVal E k / (1 - svPhiTransVal E k ^ 2))))
          (hVal E k 0) ::
          ((List.range n).map (htEvent E k) ++ [Event.det "sigma2" (svOut E k n)])

/-- Values of the random draws registered under `site`, in order. -/
def sampledAt (site : String) : List Event → List ℝ
  | [] => []
  | Event.sample nm _ v :: rest =>
    if nm = site then v :: sampledAt site rest else sampledAt site rest
  | Event.det _ _ :: rest => sampledAt site rest

/-- Sample events registered under `site`, in order. -/
def eventsAt (site : String) : List Event → List Event
  | [] => []
  | Event.sample nm d v :: rest =>
    if nm = site then Event.sample nm d v :: eventsAt site rest
    else eventsAt site rest
  | Event.det _ _ :: rest => eventsAt site rest

/-- Values of the deterministic sites registered under `site`, in order. -/
def detAt (site : String) : List Event → List (List ℝ)
  | [] => []
  | Event.sample _ _ _ :: rest => detAt site rest
  | Event.det nm v :: rest =>
    if nm = site then v :: detAt site rest else detAt site rest

/-- A concrete engine (fixed seed) for instantiating the theorems: every
draw returns 0. -/
noncomputable def zeroEngine : Engine := fun _ _ _ => 0

/-- A concrete engine (fixed seed) whose draws all return 1/2, so that the
`sv_phi` draw lies strictly inside the Beta support (0, 1). -/
noncomputable def halfEngine : Engine := fun _ _ _ => 1 / 2

/-- Full characterization of a `homoscedastic` run: it returns the `sigma2`
draw, consumes two stream positions, and appends exactly its two sample
events to the trace. -/
theorem homoscedastic_eq (E : Engine) (s : TraceState) :
    homoscedastic E s =
      (sigma2Val E s.counter,
       ⟨s.counter + 2, s.events ++ homEvents E s.counter⟩) := by
  cases s with
  | mk k evs =>
    simp [homoscedastic, sample, homEvents, C0Val, sigma2Val]

/-- The scan of `sv_ht_scan` over a zero vector of length `n` is exactly the
reference recursion `htScanSpec`: same carry and outputs, counter advanced by
`n`, and the per-step sample events appended in order. -/
theorem scan_sv_ht (E : Engine) (mu phi eta : ℝ) :
    ∀ (n : Nat) (c : ℝ) (k : Nat) (evs : List Event),
      scan (sv_ht_scan E mu phi eta) c (List.replicate n 0) ⟨k, evs⟩ =
        ((htScanSpec E mu phi eta c k n).1,
         ⟨k + n, evs ++ (htScanSpec E mu phi eta c k n).2⟩) := by
  intro n
  induction n with
  | zero => intro c k evs; simp [scan, htScanSpec]
  | succ m ih =>
    intro c k evs
    simp only [List.replicate_succ, scan, sv_ht_scan, sample, htScanSpec, ih]
    have hk : k + 1 + m = k + (m + 1) := by omega
    rw [hk]
    simp [List.append_assoc]

/-- Running the reference recursion from state `hVal E k t` at stream position
`k + 4 + t` for `m` steps yields final carry `hVal E k (t + m)`, the emitted
states `hVal E k (t+1), …, hVal E k (t+m)` in order, and the events
`htEvent E k t, …, htEvent E k (t+m-1)` in order. -/
theorem htScanSpec_hVal (E : Engine) (k : Nat) :
    ∀ (m t : Nat),
      htScanSpec E (svMuVal E k) (svPhiTransVal E k) (svEtaVal E k)
          (hVal E k t) (k + 4 + t) m =
        ((hVal E k (t + m), (List.range m).map (fun i => hVal E k (t + 1 + i))),
         (List.range m).map (fun i => htEvent E k (t + i))) := by
  intro m
  induction m with
  | zero => intro t; simp [htScanSpec]
  | succ m ih =>
    intro t
    have hstep :
        E (Dist.normal
            (svMuVal E k + svPhiTransVal E k * (hVal E k t - svMuVal E k))
            (Real.sqrt (svEtaVal E k))) "h_t" (k + 4 + t) =
          hVal E k (t + 1) := rfl
    have hk : k + 4 + t + 1 = k + 4 + (t + 1) := by omega
    simp only [htScanSpec, hstep, hk, ih (t + 1), Prod.mk.injEq]
    refine ⟨⟨?_, ?_⟩, ?_⟩
    · have ht : t + 1 + m = t + (m + 1) := by omega
      rw [ht]
    · rw [List.range_succ_eq_map, List.map_cons, List.map_map]
      have ht : t + 1 + 0 = t + 1 := by omega
      rw [ht]
      refine congrArg (List.cons _) (List.map_congr_left ?_)
      intro a _
      have ht2 : t + 1 + 1 + a = t + 1 + Nat.succ a := by omega
      simp only [Function.comp, ht2]
    · rw [List.range_succ_eq_map, List.map_cons, List.map_map]
      have ht : htEvent E k (t + 0) =
          Event.sample "h_t"
            (Dist.normal
              (svMuVal E k + svPhiTransVal E k * (hVal E k t - svMuVal E k))
              (Real.sqrt (svEtaVal E k)))
            (hVal E k (t + 1)) := rfl
      rw [ht]
      refine congrArg (List.cons _) (List.map_congr_left ?_)
      intro a _
      have ht2 : t + 1 + a = t + Nat.succ a := by omega
      simp only [Function.comp, ht2]

/-- Specialization of `htScanSpec_hVal` to the start of the scan (`t = 0`). -/
theorem htScanSpec_hVal_zero (E : Engine) (k n : Nat) :
    htScanSpec E (svMuVal E k) (svPhiTransVal E k) (svEtaVal E k)
        (hVal E k 0) (k + 4) n =
      ((hVal E k n, (List.range n).map (fun t => hVal E k (t + 1))),
       (List.range n).map (htEvent E k)) := by
  have h := htScanSpec_hVal E k n 0
  have h0 : k + 4 + 0 = k + 4 := rfl
  rw [h0] at h
  rw [h]
  refine congrArg₂ Prod.mk (congrArg₂ Prod.mk ?_ ?_) ?_
  · rw [Nat.zero_add]
  · refine List.map_congr_left ?_
    intro a _
    rw [show 0 + 1 + a = a + 1 from by omega]
  · refine List.map_congr_left ?_
    intro a _
    rw [Nat.zero_add]

/-- Full characterization of a `stochastic_volatility` run: it returns
`svOut`, consumes `4 + n` stream positions, and appends exactly the events
`svEvents` to the trace. -/
theorem stochastic_volatility_eq (E : Engine) (n k : Nat) (evs : List Event) :
    stochastic_volatility E n ⟨k, evs⟩ =
      (svOut E k n, ⟨k + 4 + n, evs ++ svEvents E k n⟩) := by
  simp only [stochastic_volatility, sample, deterministic]
  rw [show E (Dist.beta 5.0 1.5) "sv_phi" k = svPhiVal E k from rfl]
  rw [show svPhiVal E k * 2 - 1 = svPhiTransVal E k from rfl]
  rw [show E (Dist.gamma 0.5 (0.5 * 1.0)) "sv_sigma2_eta" (k + 1) =
    svEtaVal E k from rfl]
  rw [show E (Dist.normal 0.0 (Real.sqrt 1.0)) "sv_mu" (k + 1 + 1) =
    svMuVal E k from rfl]
  rw [show E (Dist.normal (svMuVal E k)
      (Real.sqrt (svEtaVal E k / (1 - svPhiTransVal E k ^ 2)))) "h_0"
      (k + 1 + 1 + 1) = hVal E k 0 from rfl]
  rw [scan_sv_ht]
  rw [show k + 1 + 1 + 1 + 1 = k + 4 from rfl]
  rw [htScanSpec_hVal_zero]
  simp [svEvents, svOut, List.append_assoc]

/-! Trace-extraction helpers: the values or events registered under a given
site name, in registration order. -/

theorem sampledAt_append (site : String) (l1 l2 : List Event) :
    sampledAt site (l1 ++ l2) = sampledAt site l1 ++ sampledAt site l2 := by
  induction l1 with
  | nil => rfl
  | cons e rest ih =>
    cases e with
    | sample nm d v =>
      by_cases h : nm = site <;> simp [sampledAt, h, ih]
    | det nm v => simp [sampledAt, ih]

theorem eventsAt_append (site : String) (l1 l2 : List Event) :
    eventsAt site (l1 ++ l2) = eventsAt site l1 ++ eventsAt site l2 := by
  induction l1 with
  | nil => rfl
  | cons e rest ih =>
    cases e with
    | sample nm d v =>
      by_cases h : nm = site <;> simp [eventsAt, h, ih]
    | det nm v => simp [eventsAt, ih]

theorem detAt_append (site : String) (l1 l2 : List Event) :
    detAt site (l1 ++ l2) = detAt site l1 ++ detAt site l2 := by
  induction l1 with
  | nil => rfl
  | cons e rest ih =>
    cases e with
    | sample nm d v => simp [detAt, ih]
    | det nm v =>
      by_cases h : nm = site <;> simp [detAt, h, ih]

/-- Every event of the scan block is a sample at site `h_t`; extracting at
`h_t` returns the whole block. -/
theorem eventsAt_ht_map (E : Engine) (k : Nat) (l : List Nat) :
    eventsAt "h_t" (l.map (htEvent E k)) = l.map (htEvent E k) := by
  induction l with
  | nil => rfl
  | cons a rest ih => simp [htEvent, eventsAt, ih]

/-- The values sampled in the scan block are the latent states
`hVal E k (t+1)`. -/
theorem sampledAt_ht_map (E : Engine) (k : Nat) (l : List Nat) :
    sampledAt "h_t" (l.map (htEvent E k)) = l.map (fun t => hVal E k (t + 1)) := by
  induction l with
  | nil => rfl
  | cons a rest ih => simp [htEvent, sampledAt, ih]

/-- The scan block registers nothing under any site other than `h_t`. -/
theorem sampledAt_ht_map_ne (E : Engine) (k : Nat) (site : String)
    (hne : "h_t" ≠ site) (l : List Nat) :
    sampledAt site (l.map (htEvent E k)) = [] := by
  induction l with
  | nil => rfl
  | cons a rest ih => simp [htEvent, sampledAt, if_neg hne, ih]

theorem eventsAt_ht_map_ne (E : Engine) (k : Nat) (site : String)
    (hne : "h_t" ≠ site) (l : List Nat) :
    eventsAt site (l.map (htEvent E k)) = [] := by
  induction l with
  | nil => rfl
  | cons a rest ih => simp [htEvent, eventsAt, if_neg hne, ih]

/-- The scan block registers no deterministic site. -/
theorem detAt_ht_map (E : Engine) (k : Nat) (site : String) (l : List Nat) :
    detAt site (l.map (htEvent E k)) = [] := by
  induction l with
  | nil => rfl
  | cons a rest ih => simp [htEvent, detAt, ih]

/-- The scan block consists of `n` registrations of the shared site name
`h_t`. -/
theorem site_ht_map (E : Engine) (k : Nat) (l : List Nat) :
    (l.map (htEvent E k)).map Event.site = List.replicate l.length "h_t" := by
  induction l with
  | nil => rfl
  | cons a rest ih => simp [htEvent, Event.site, List.replicate_succ, ih]

/-- C1: for every `n_timesteps ≥ 1`, `stochastic_volatility` returns a
sequence of exactly `n_timesteps` elements, whose position-`t` element is the
variance of timestep `t+1` (chronological order), and every element is
strictly positive. -/
theorem C1_sv_length_order_positive (E : Engine) (n k : Nat)
    (evs : List Event) (_h : 1 ≤ n) :
    ((stochastic_volatility E n ⟨k, evs⟩).1).length = n ∧
    (stochastic_volatility E n ⟨k, evs⟩).1 =
      (List.range n).map (fun t => Real.exp (hVal E k (t + 1))) ∧
    ∀ x ∈ (stochastic_volatility E n ⟨k, evs⟩).1, 0 < x := by
  rw [stochastic_volatility_eq]
  refine ⟨by simp [svOut], by simp [svOut, List.map_map, Function.comp], ?_⟩
  intro x hx
  simp only [svOut, List.map_map, Function.comp, List.mem_map] at hx
  obtain ⟨t, ht, rfl⟩ := hx
  exact Real.exp_pos _

theorem C1_sv_length_order_positive_witness :
    1 ≤ 3 ∧
    (((stochastic_volatility zeroEngine 3 ⟨0, []⟩).1).length = 3 ∧
     (stochastic_volatility zeroEngine 3 ⟨0, []⟩).1 =
       (List.range 3).map (fun t => Real.exp (hVal zeroEngine 0 (t + 1))) ∧
     ∀ x ∈ (stochastic_volatility zeroEngine 3 ⟨0, []⟩).1, 0 < x) :=
  ⟨by decide, C1_sv_length_order_positive zeroEngine 3 0 [] (by decide)⟩

/-- C4: `homoscedastic` draws `C_0 ~ Gamma(shape 5, rate 3.33)` and then
`sigma2 ~ InverseGamma(shape 2.5, scale C_0)`, in that order (consecutive
stream positions, events registered in sequence), and returns the scalar
`sigma2` draw. -/
theorem C4_homoscedastic_two_draws (E : Engine) (s : TraceState) :
    homoscedastic E s =
      (sigma2Val E s.counter,
       ⟨s.counter + 2,
        s.events ++
          [Event.sample "C_0" (Dist.gamma 5 3.33) (C0Val E s.counter),
           Event.sample "sigma2" (Dist.inverseGamma 2.5 (C0Val E s.counter))
             (sigma2Val E s.counter)]⟩) := by
  rw [homoscedastic_eq]; rfl

/-- C7: with `n_timesteps = 0`, `stochastic_volatility` returns the empty
sequence (the embedding is a total function, so no exception is raised). -/
theorem C7_zero_timesteps_empty (E : Engine) (s : TraceState) :
    (stochastic_volatility E 0 s).1 = [] := by
  cases s with
  | mk k evs =>
    rw [stochastic_volatility_eq]
    simp [svOut]

/-- C8: both functions are deterministic given a fixed seed: two runs with
the same engine (same seed) and same starting trace produce identical
results — identical draws, identical latent states, identical `sigma2`. -/
theorem C8_deterministic_given_seed (E1 E2 : Engine) (s1 s2 : TraceState)
    (n : Nat) (h : E1 = E2) (hs : s1 = s2) :
    homoscedastic E1 s1 = homoscedastic E2 s2 ∧
    stochastic_volatility E1 n s1 = stochastic_volatility E2 n s2 := by
  subst h
  subst hs
  exact ⟨rfl, rfl⟩

theorem C8_deterministic_given_seed_witness :
    zeroEngine = zeroEngine ∧ (⟨0, []⟩ : TraceState) = ⟨0, []⟩ ∧
    (homoscedastic zeroEngine ⟨0, []⟩ = homoscedastic zeroEngine ⟨0, []⟩ ∧
     stochastic_volatility zeroEngine 2 ⟨0, []⟩ =
       stochastic_volatility zeroEngine 2 ⟨0, []⟩) :=
  ⟨rfl, rfl,
   C8_deterministic_given_seed zeroEngine zeroEngine ⟨0, []⟩ ⟨0, []⟩ 2 rfl rfl⟩

/-- C10: `homoscedastic` always returns the sampled `sigma2` value (never a
unit/None value — its embedded return type is ℝ): the returned value is
exactly the draw registered under site `sigma2`. -/
theorem C10_returns_sigma2_draw (E : Engine) (s : TraceState) :
    (homoscedastic E s).1 = sigma2Val E s.counter ∧
    sampledAt "sigma2" ((homoscedastic E s).2.events) =
      sampledAt "sigma2" s.events ++ [(homoscedastic E s).1] := by
  rw [homoscedastic_eq]
  refine ⟨rfl, ?_⟩
  simp only []
  rw [sampledAt_append]
  simp [homEvents, sampledAt]

/-- C2: the `h_t` registrations of a run are exactly
`htEvent E k 0, …, htEvent E k (n-1)` in time order: the `t`-th draw
(0-indexed) is from `Normal(sv_mu + sv_phi_trans*(hVal E k t − sv_mu),
sqrt(sv_sigma2_eta))`, where `hVal E k t` is the immediately preceding
carried state, each draw consuming the next stream position (strict
left-to-right first-order Markov recursion); the sampled values are the
states `hVal E k 1, …, hVal E k n` of that recursion. -/
theorem C2_markov_recursion (E : Engine) (n k : Nat) :
    eventsAt "h_t" ((stochastic_volatility E n ⟨k, []⟩).2.events) =
      (List.range n).map (htEvent E k) ∧
    sampledAt "h_t" ((stochastic_volatility E n ⟨k, []⟩).2.events) =
      (List.range n).map (fun t => hVal E k (t + 1)) := by
  rw [stochastic_volatility_eq]
  constructor
  · simp [svEvents, eventsAt, eventsAt_append, eventsAt_ht_map]
  · simp [svEvents, sampledAt, sampledAt_append, sampledAt_ht_map]

/-- C3: the deterministic site `sigma2` registers exactly the elementwise
exponential of the traced `h_t` values, the returned sequence is that same
list, and nothing is ever sampled under the name `sigma2`. -/
theorem C3_sigma2_exp_of_h (E : Engine) (n k : Nat) :
    (stochastic_volatility E n ⟨k, []⟩).1 =
      (sampledAt "h_t"
        ((stochastic_volatility E n ⟨k, []⟩).2.events)).map Real.exp ∧
    detAt "sigma2" ((stochastic_volatility E n ⟨k, []⟩).2.events) =
      [(sampledAt "h_t"
        ((stochastic_volatility E n ⟨k, []⟩).2.events)).map Real.exp] ∧
    sampledAt "sigma2" ((stochastic_volatility E n ⟨k, []⟩).2.events) = [] := by
  rw [stochastic_volatility_eq]
  refine ⟨?_, ?_, ?_⟩ <;>
    simp [svEvents, svOut, sampledAt, detAt, sampledAt_append, detAt_append,
      sampledAt_ht_map, sampledAt_ht_map_ne, detAt_ht_map]

/-- C5: `sv_phi` is drawn from `Beta(5.0, 1.5)`; the transform
`sv_phi_trans = sv_phi*2 − 1` maps the support (0,1) into (−1,1); and the
initial state is drawn at site `h_0` from
`Normal(sv_mu, sqrt(sv_sigma2_eta / (1 − sv_phi_trans^2)))`, the stationary
standard deviation of the AR(1) process. -/
theorem C5_beta_prior_transform_h0 (E : Engine) (n k : Nat) :
    eventsAt "sv_phi" ((stochastic_volatility E n ⟨k, []⟩).2.events) =
      [Event.sample "sv_phi" (Dist.beta 5.0 1.5) (svPhiVal E k)] ∧
    svPhiTransVal E k = svPhiVal E k * 2 - 1 ∧
    (0 < svPhiVal E k → svPhiVal E k < 1 →
      -1 < svPhiTransVal E k ∧ svPhiTransVal E k < 1) ∧
    eventsAt "h_0" ((stochastic_volatility E n ⟨k, []⟩).2.events) =
      [Event.sample "h_0"
        (Dist.normal (svMuVal E k)
          (Real.sqrt (svEtaVal E k / (1 - svPhiTransVal E k ^ 2))))
        (hVal E k 0)] := by
  refine ⟨?_, rfl, ?_, ?_⟩
  · rw [stochastic_volatility_eq]
    simp [svEvents, eventsAt, eventsAt_append, eventsAt_ht_map_ne]
  · intro h0 h1
    unfold svPhiTransVal
    constructor <;> nlinarith
  · rw [stochastic_volatility_eq]
    simp [svEvents, eventsAt, eventsAt_append, eventsAt_ht_map_ne]

theorem C5_beta_prior_transform_h0_witness :
    (0 < svPhiVal halfEngine 0 ∧ svPhiVal halfEngine 0 < 1) ∧
    (-1 < svPhiTransVal halfEngine 0 ∧ svPhiTransVal halfEngine 0 < 1) := by
  have h := (C5_beta_prior_transform_h0 halfEngine 1 0).2.2.1
  have h0 : (0 : ℝ) < svPhiVal halfEngine 0 := one_half_pos
  have h1 : svPhiVal halfEngine 0 < 1 := one_half_lt_one
  exact ⟨⟨h0, h1⟩, h h0 h1⟩

/-- C6: for `sv_phi` strictly inside (0,1), the quantity
`1 − sv_phi_trans^2` is strictly positive, so the stationary initial-variance
formula is well-defined; it is ≤ 0 exactly when `sv_phi_trans` reaches ±1
(in absolute value); and the code registers the `h_0` draw with the formula
unconditionally — for every engine, without any guard. -/
theorem C6_stationary_variance_welldefined (E : Engine) (n k : Nat) :
    (0 < svPhiVal E k → svPhiVal E k < 1 →
      0 < 1 - svPhiTransVal E k ^ 2) ∧
    (1 - svPhiTransVal E k ^ 2 ≤ 0 ↔ 1 ≤ |svPhiTransVal E k|) ∧
    eventsAt "h_0" ((stochastic_volatility E n ⟨k, []⟩).2.events) =
      [Event.sample "h_0"
        (Dist.normal (svMuVal E k)
          (Real.sqrt (svEtaVal E k / (1 - svPhiTransVal E k ^ 2))))
        (hVal E k 0)] := by
  refine ⟨?_, ?_, ?_⟩
  · intro h0 h1
    unfold svPhiTransVal
    nlinarith
  · rw [sub_nonpos, ← sq_abs]
    constructor
    · intro h
      nlinarith [abs_nonneg (svPhiTransVal E k)]
    · intro h
      nlinarith [abs_nonneg (svPhiTransVal E k)]
  · rw [stochastic_volatility_eq]
    simp [svEvents, eventsAt, eventsAt_append, eventsAt_ht_map_ne]

theorem C6_stationary_variance_welldefined_witness :
    (0 < svPhiVal halfEngine 0 ∧ svPhiVal halfEngine 0 < 1) ∧
    0 < 1 - svPhiTransVal halfEngine 0 ^ 2 := by
  have h := (C6_stationary_variance_welldefined halfEngine 1 0).1
  exact ⟨⟨one_half_pos, one_half_lt_one⟩, h one_half_pos one_half_lt_one⟩

/-- C9: the only sites registered are, for `homoscedastic`, the two draws
`C_0` and `sigma2`, and for `stochastic_volatility`, the four scalar draws
`sv_phi`, `sv_sigma2_eta`, `sv_mu`, `h_0`, one draw per timestep under the
single reused name `h_t`, and the deterministic site `sigma2`; the trace is
touched only by appending exactly those events and advancing the draw
counter by the number of draws. -/
theorem C9_registered_sites (E : Engine) (s : TraceState) (n : Nat) :
    ((homoscedastic E s).2.events = s.events ++ homEvents E s.counter ∧
     (homoscedastic E s).2.counter = s.counter + 2 ∧
     (homEvents E s.counter).map Event.site = ["C_0", "sigma2"]) ∧
    ((stochastic_volatility E n s).2.events =
        s.events ++ svEvents E s.counter n ∧
     (stochastic_volatility E n s).2.counter = s.counter + 4 + n ∧
     (svEvents E s.counter n).map Event.site =
       ["sv_phi", "sv_sigma2_eta", "sv_mu", "h_0"] ++
         List.replicate n "h_t" ++ ["sigma2"]) := by
  cases s with
  | mk k evs =>
    rw [homoscedastic_eq, stochastic_volatility_eq]
    refine ⟨⟨rfl, rfl, rfl⟩, rfl, rfl, ?_⟩
    simp only [svEvents, List.map_cons, List.map_append, site_ht_map,
      List.length_range, Event.site]
    simp [List.append_assoc]

end StochVol
